import Mathlib

/-!
Verification of the transaction-ledger core of the `txns` repository.

The embedding mirrors `src/domain/transaction/mod.rs`, `src/domain/error/mod.rs`
and `src/domain/account/mod.rs`:

* `rust_decimal::Decimal` amounts are embedded as integers `ℤ`: every
  `Decimal` is an integer mantissa at a fixed power-of-ten scale, and the
  program only adds, negates, sums and compares amounts — operations on
  which `Decimal` arithmetic is exact and agrees with `ℤ` arithmetic on
  the mantissas (the concrete scenario amounts `100.0`, `50.0`, `30.0`,
  `60.0`, `40.0` of the spec appear as the integers `100`, `50`, `30`,
  `60`, `40`);
* `u16` client ids and `u64` transaction ids are embedded as `ℕ` — the
  program never does arithmetic on them, only equality tests and grouping;
* the per-client `HashSet<Transaction>` built inside `from_transactions`
  is embedded as `List.dedup` of the client's group (structural
  deduplication; the set's iteration order is arbitrary in the source, so
  a fixed canonical order is chosen here);
* the `HashMap<u64, Decimal>` of signed amounts is embedded as an
  association list where insertion overwrites the previous binding;
* `Result<T, Error>` is embedded as `Except Error T`, and
  `collect::<Result<Vec<_>>>` as `collectResults`, which short-circuits
  at the first error.
-/

namespace Txns

/-- `TransactionKind` from `src/domain/transaction/mod.rs`. -/
inductive TransactionKind where
  | deposit (amount : ℤ)
  | withdrawal (amount : ℤ)
  | dispute
  | resolve
  | chargeback
deriving DecidableEq, Repr

/-- `Transaction` from `src/domain/transaction/mod.rs` (fields in source order). -/
structure Transaction where
  transaction_id : ℕ
  client : ℕ
  kind : TransactionKind
deriving DecidableEq, Repr

/-- `Error` from `src/domain/error/mod.rs`: the single business error. -/
inductive Error where
  | noAvailableFundsToWithdraw (client : ℕ)
deriving DecidableEq, Repr

/-- `Account` from `src/domain/account/mod.rs` (fields in source order). -/
structure Account where
  client : ℕ
  available : ℤ
  held : ℤ
  total : ℤ
  locked : Bool
deriving DecidableEq, Repr

/-- Whether a transaction is monetary (a `Deposit` or a `Withdrawal`),
i.e. matches the first `filter_map` arm of `process_client_transactions`. -/
def isMonetary (tx : Transaction) : Bool :=
  match tx.kind with
  | .deposit _ => true
  | .withdrawal _ => true
  | _ => false

/-- The signed amount a monetary transaction contributes to the per-id map:
`+amount` for a deposit, `-amount` for a withdrawal (`0` for the rest,
which never reach the map). -/
def signedAmount (tx : Transaction) : ℤ :=
  match tx.kind with
  | .deposit a => a
  | .withdrawal a => -a
  | _ => 0

/-- `HashMap` insertion: the new binding replaces any previous binding of
the same key. -/
def insertAmount (m : List (ℕ × ℤ)) (id : ℕ) (a : ℤ) : List (ℕ × ℤ) :=
  (id, a) :: m.filter (fun p => p.1 ≠ id)

/-- One step of building the `tx_amounts` map (the `filter_map` arm of
`process_client_transactions`): a deposit contributes `+amount`, a
withdrawal `-amount`, other kinds nothing. -/
def insertTx (m : List (ℕ × ℤ)) (tx : Transaction) : List (ℕ × ℤ) :=
  match tx.kind with
  | .deposit a => insertAmount m tx.transaction_id a
  | .withdrawal a => insertAmount m tx.transaction_id (-a)
  | _ => m

/-- The `tx_amounts` map of `process_client_transactions`. -/
def buildTxAmounts (txs : List Transaction) : List (ℕ × ℤ) :=
  txs.foldl insertTx []

/-- `tx_amounts.get(&tx.transaction_id).unwrap_or(&Decimal::ZERO)`. -/
def lookupAmount (m : List (ℕ × ℤ)) (id : ℕ) : ℤ :=
  match m.find? (fun p => p.1 == id) with
  | some p => p.2
  | none => 0

/-- `tx_amounts.values().sum()`. -/
def mapTotal (m : List (ℕ × ℤ)) : ℤ :=
  (m.map Prod.snd).sum

/-- The running state of the replay fold: the fold accumulator
`(avail, held, locked)` of `process_client_transactions` together with the
captured mutable `total`. -/
structure ReplayState where
  available : ℤ
  held : ℤ
  total : ℤ
  locked : Bool
deriving DecidableEq, Repr

/-- One step of the replay fold of `process_client_transactions`
(the `match tx.kind` on Dispute/Resolve/Chargeback; monetary kinds are
filtered out before the fold and are left unchanged here, mirroring the
`unreachable!` arm). -/
def applyNonMonetary (m : List (ℕ × ℤ)) (s : ReplayState) (tx : Transaction) :
    ReplayState :=
  let amount := lookupAmount m tx.transaction_id
  match tx.kind with
  | .dispute =>
    if amount < 0 then
      ⟨s.available - amount, s.held - amount, s.total - amount, s.locked⟩
    else
      ⟨s.available - amount, s.held + amount, s.total, s.locked⟩
  | .resolve =>
    if amount < 0 then
      ⟨s.available, s.held + amount, s.total, s.locked⟩
    else
      ⟨s.available + amount, s.held - amount, s.total, s.locked⟩
  | .chargeback => ⟨s.available, s.held, s.total, true⟩
  | _ => s

/-- `Account::process_client_transactions` on the (deduplicated) set of a
client's transactions. -/
def process_client_transactions (client : ℕ) (txs : List Transaction) :
    Except Error Account :=
  let m := buildTxAmounts txs
  let total := mapTotal m
  if total < 0 then
    .error (.noAvailableFundsToWithdraw client)
  else
    let s := (txs.filter (fun tx => !isMonetary tx)).foldl
      (applyNonMonetary m) ⟨total, 0, total, false⟩
    .ok ⟨client, s.available, s.held, s.total, s.locked⟩

/-- The distinct client ids of the input, the key set of
`into_group_map_by` (the hash map's iteration order is arbitrary in the
source; a fixed canonical order is chosen here). -/
def clientKeys (l : List Transaction) : List ℕ :=
  (l.map (·.client)).dedup

/-- The group of a client's transactions, in input order
(`into_group_map_by` preserves relative order within a group). -/
def clientGroup (l : List Transaction) (c : ℕ) : List Transaction :=
  l.filter (fun tx => tx.client == c)

/-- `collect::<Result<Vec<_>, _>>()`: the first error short-circuits. -/
def collectResults : List (Except Error Account) → Except Error (List Account)
  | [] => .ok []
  | .error e :: _ => .error e
  | .ok a :: rest =>
    match collectResults rest with
    | .error e => .error e
    | .ok accounts => .ok (a :: accounts)

/-- `Account::from_transactions`: group by client, collect each group into
a set (structural deduplication), process each client, collect the
results. -/
def from_transactions (l : List Transaction) : Except Error (List Account) :=
  collectResults ((clientKeys l).map
    (fun c => process_client_transactions c ((clientGroup l c).dedup)))

instance {ε α : Type} [DecidableEq ε] [DecidableEq α] : DecidableEq (Except ε α) :=
  fun x y =>
    match x, y with
    | .ok a, .ok b =>
      if h : a = b then .isTrue (by rw [h])
      else .isFalse (by intro hc; cases hc; exact h rfl)
    | .error e, .error f =>
      if h : e = f then .isTrue (by rw [h])
      else .isFalse (by intro hc; cases hc; exact h rfl)
    | .ok _, .error _ => .isFalse (by intro hc; cases hc)
    | .error _, .ok _ => .isFalse (by intro hc; cases hc)

/-- The sum of a client's transaction amounts read off the raw input
records, deposits positive and withdrawals negative, counting every
occurrence. Modelled from the spec's words "sum of deposit amounts minus
withdrawal amounts" (claim C3); the source instead sums the values of the
deduplicated per-id map. -/
def naiveClientSum (l : List Transaction) (c : ℕ) : ℤ :=
  ((l.filter (fun tx => tx.client == c)).map signedAmount).sum

/-- The per-client total actually computed by the source: the sum of the
values of the per-id signed amount map built from the deduplicated group. -/
def clientTotal (l : List Transaction) (c : ℕ) : ℤ :=
  mapTotal (buildTxAmounts ((clientGroup l c).dedup))

/-- Each `(client, transaction id)` pair is carried by at most one
distinct monetary record of the input (the hypothesis of claim C10: the
per-id amount map then has no colliding insertions). -/
def uniqueMonetaryIds (l : List Transaction) : Prop :=
  ∀ t ∈ l, ∀ t' ∈ l, isMonetary t = true → isMonetary t' = true →
    t.client = t'.client → t.transaction_id = t'.transaction_id → t = t'

instance (l : List Transaction) : Decidable (uniqueMonetaryIds l) := by
  unfold uniqueMonetaryIds
  infer_instance

/-- Within one client's group: distinct monetary records carry distinct
transaction ids. -/
def sameIdUnique (d : List Transaction) : Prop :=
  ∀ t ∈ d, ∀ t' ∈ d, isMonetary t = true → isMonetary t' = true →
    t.transaction_id = t'.transaction_id → t = t'

/-- The transaction ids of a group's monetary records, in order. -/
def monIds (d : List Transaction) : List ℕ :=
  (d.filter isMonetary).map (·.transaction_id)

/-- The binding a monetary record contributes to the amount map. -/
def txPair (t : Transaction) : ℕ × ℤ :=
  (t.transaction_id, signedAmount t)

/-- C7: for the input `Deposit(client=1,id=1,100)`, `Withdrawal(client=1,id=2,30)`,
`Dispute(client=1,id=2)`, `Resolve(client=1,id=2)`, `from_transactions` returns
`Ok` with exactly one account, having `total = 100`, `available = 100`,
`held = 0` (and `locked = false`). -/
theorem claim_C7 :
    from_transactions
        [⟨1, 1, .deposit 100⟩, ⟨2, 1, .withdrawal 30⟩,
          ⟨2, 1, .dispute⟩, ⟨2, 1, .resolve⟩] =
      .ok [⟨1, 100, 0, 100, false⟩] := by
  decide

/-- C8: for the input `Deposit(client=1,id=1,100)`, `Deposit(client=1,id=2,50)`,
`Dispute(client=1,id=1)`, `Chargeback(client=1,id=1)`, `from_transactions`
returns `Ok` with exactly one account, having `total = 150`,
`available = 50`, `held = 100`, `locked = true`; dropping the chargeback
yields the identical balances with `locked = false`, so the chargeback sets
the lock but moves no funds beyond the preceding dispute. -/
theorem claim_C8 :
    from_transactions
        [⟨1, 1, .deposit 100⟩, ⟨2, 1, .deposit 50⟩,
          ⟨1, 1, .dispute⟩, ⟨1, 1, .chargeback⟩] =
      .ok [⟨1, 50, 100, 150, true⟩] ∧
    from_transactions
        [⟨1, 1, .deposit 100⟩, ⟨2, 1, .deposit 50⟩, ⟨1, 1, .dispute⟩] =
      .ok [⟨1, 50, 100, 150, false⟩] := by
  decide

/-- C9: `from_transactions` enforces no non-negativity on the returned
balances: disputing a deposit larger than the remaining balance yields `Ok`
with a negative `available` (`-60`), and resolving an existing withdrawal
with no preceding dispute yields `Ok` with a negative `held` (`-30`); the
negative-funds error looks only at the sum of monetary amounts, not at the
replayed state. -/
theorem claim_C9 :
    (from_transactions
        [⟨1, 1, .deposit 100⟩, ⟨2, 1, .withdrawal 60⟩, ⟨1, 1, .dispute⟩] =
      .ok [⟨1, -60, 100, 40, false⟩] ∧ (-60 : ℤ) < 0) ∧
    (from_transactions
        [⟨1, 1, .deposit 100⟩, ⟨2, 1, .withdrawal 30⟩, ⟨2, 1, .resolve⟩] =
      .ok [⟨1, 70, -30, 70, false⟩] ∧ (-30 : ℤ) < 0) := by
  decide

/-- Counterexample to C1 as stated: on the input `Deposit(1,1,100)`,
`Withdrawal(1,2,30)`, `Dispute(1,2)` the operation returns `Ok`, but the
returned account has `total = 100` and `available + held = 100 + 30 = 130`,
so `total = available + held` fails. -/
theorem claim_C1_counterexample :
    from_transactions
        [⟨1, 1, .deposit 100⟩, ⟨2, 1, .withdrawal 30⟩, ⟨2, 1, .dispute⟩] =
      .ok [⟨1, 100, 30, 100, false⟩] ∧ (100 : ℤ) ≠ 100 + 30 := by
  decide

/-- Counterexample to C2 as stated: before the dispute of the withdrawal
(`Deposit(1,1,100)`, `Withdrawal(1,2,30)`) the account has
`available = 70`; after adding `Dispute(1,2)` the account has
`available = 100 ≠ 70`, so the dispute of a withdrawal does not leave
`available` unchanged (the source also subtracts the negative amount from
`avail`, line 68 of `src/domain/account/mod.rs`). -/
theorem claim_C2_counterexample :
    from_transactions [⟨1, 1, .deposit 100⟩, ⟨2, 1, .withdrawal 30⟩] =
      .ok [⟨1, 70, 0, 70, false⟩] ∧
    from_transactions
        [⟨1, 1, .deposit 100⟩, ⟨2, 1, .withdrawal 30⟩, ⟨2, 1, .dispute⟩] =
      .ok [⟨1, 100, 30, 100, false⟩] ∧ (100 : ℤ) ≠ 70 := by
  decide

/-- Counterexample to C3 as stated: on the input `Deposit(1,1,100)`,
`Withdrawal(1,2,60)`, `Withdrawal(1,2,60)` the record-level sum of deposit
amounts minus withdrawal amounts is `-20 < 0`, yet `from_transactions`
returns `Ok` (the two structurally identical withdrawals collapse in the
per-client set before the per-id amount map is summed). -/
theorem claim_C3_counterexample :
    naiveClientSum
        [⟨1, 1, .deposit 100⟩, ⟨2, 1, .withdrawal 60⟩, ⟨2, 1, .withdrawal 60⟩]
        1 = -20 ∧ (-20 : ℤ) < 0 ∧
    from_transactions
        [⟨1, 1, .deposit 100⟩, ⟨2, 1, .withdrawal 60⟩, ⟨2, 1, .withdrawal 60⟩] =
      .ok [⟨1, 40, 0, 40, false⟩] := by
  decide

/-- Counterexample to C4 as stated: disputing and then resolving the
withdrawal `Withdrawal(1,2,30)` does not restore `available` to its
pre-dispute value and does not leave `total` unchanged: before the dispute
the account has `available = total = 70`, after dispute-then-resolve it has
`available = total = 100 ≠ 70` (`held` alone is restored). -/
theorem claim_C4_counterexample :
    from_transactions [⟨1, 1, .deposit 100⟩, ⟨2, 1, .withdrawal 30⟩] =
      .ok [⟨1, 70, 0, 70, false⟩] ∧
    from_transactions
        [⟨1, 1, .deposit 100⟩, ⟨2, 1, .withdrawal 30⟩,
          ⟨2, 1, .dispute⟩, ⟨2, 1, .resolve⟩] =
      .ok [⟨1, 100, 0, 100, false⟩] ∧ (100 : ℤ) ≠ 70 := by
  decide

/-- Counterexample to C5 as stated: a `Chargeback(client=1, id=999)` whose
transaction id matches no deposit or withdrawal of client 1 does not leave
`locked` unchanged — it flips it from `false` to `true` (the chargeback arm
of the source sets `locked = true` unconditionally). -/
theorem claim_C5_counterexample :
    from_transactions [⟨1, 1, .deposit 50⟩] = .ok [⟨1, 50, 0, 50, false⟩] ∧
    from_transactions [⟨1, 1, .deposit 50⟩, ⟨999, 1, .chargeback⟩] =
      .ok [⟨1, 50, 0, 50, true⟩] ∧ true ≠ false := by
  decide

/-- Counterexample to C6 as stated: the input `Deposit(1,1,100)`,
`Dispute(1,1)`, `Dispute(1,1)` contains two dispute records with the same
client and transaction id, no intervening resolve, and no prior
deduplication by the Source, yet the dispute effect is applied only once:
the result equals that of a single dispute (`held = 100`, not `200`),
because `from_transactions` itself collapses the structurally identical
records in its per-client set. -/
theorem claim_C6_counterexample :
    from_transactions
        [⟨1, 1, .deposit 100⟩, ⟨1, 1, .dispute⟩, ⟨1, 1, .dispute⟩] =
      .ok [⟨1, 0, 100, 100, false⟩] ∧
    from_transactions [⟨1, 1, .deposit 100⟩, ⟨1, 1, .dispute⟩] =
      .ok [⟨1, 0, 100, 100, false⟩] ∧ (100 : ℤ) ≠ 200 := by
  decide

example :
    from_transactions [⟨1, 1, .deposit 100⟩] = .ok [⟨1, 100, 0, 100, false⟩] := by
  decide

example :
    from_transactions [⟨1, 1, .deposit 100⟩, ⟨2, 1, .withdrawal 30⟩] =
      .ok [⟨1, 70, 0, 70, false⟩] := by
  decide

example :
    from_transactions [⟨1, 1, .deposit 50⟩, ⟨2, 1, .withdrawal 100⟩] =
      .error (.noAvailableFundsToWithdraw 1) := by
  decide

example :
    from_transactions [⟨1, 1, .deposit 100⟩, ⟨2, 1, .withdrawal 30⟩,
        ⟨2, 1, .dispute⟩] =
      .ok [⟨1, 100, 30, 100, false⟩] := by
  decide

theorem mem_insertAmount {m : List (ℕ × ℤ)} {id : ℕ} {a : ℤ} {p : ℕ × ℤ}
    (hp : p ∈ insertAmount m id a) : p = (id, a) ∨ p ∈ m := by
  unfold insertAmount at hp
  rcases List.mem_cons.mp hp with h | h
  · exact Or.inl h
  · exact Or.inr (List.mem_of_mem_filter h)

theorem insertTx_monetary {tx : Transaction} (h : isMonetary tx = true)
    (m : List (ℕ × ℤ)) :
    insertTx m tx = insertAmount m tx.transaction_id (signedAmount tx) := by
  rcases tx with ⟨i, c, k⟩
  cases k <;> simp_all [insertTx, isMonetary, signedAmount]

theorem insertTx_not_monetary {tx : Transaction} (h : isMonetary tx = false)
    (m : List (ℕ × ℤ)) : insertTx m tx = m := by
  rcases tx with ⟨i, c, k⟩
  cases k <;> simp_all [insertTx, isMonetary]

theorem mem_foldl_insertTx :
    ∀ (txs : List Transaction) (m₀ : List (ℕ × ℤ)) (p : ℕ × ℤ),
      p ∈ txs.foldl insertTx m₀ →
      p ∈ m₀ ∨ ∃ t ∈ txs, isMonetary t = true ∧
        p = (t.transaction_id, signedAmount t) := by
  intro txs
  induction txs with
  | nil => intro m₀ p hp; exact Or.inl hp
  | cons tx rest ih =>
    intro m₀ p hp
    rw [List.foldl_cons] at hp
    rcases ih (insertTx m₀ tx) p hp with h | ⟨t, ht, hmon, hpt⟩
    · by_cases hm : isMonetary tx = true
      · rw [insertTx_monetary hm] at h
        rcases mem_insertAmount h with h' | h'
        · exact Or.inr ⟨tx, List.mem_cons_self _ _, hm, h'⟩
        · exact Or.inl h'
      · rw [insertTx_not_monetary (Bool.eq_false_iff.mpr hm)] at h
        exact Or.inl h
    · exact Or.inr ⟨t, List.mem_cons_of_mem _ ht, hmon, hpt⟩

theorem mem_buildTxAmounts {txs : List Transaction} {p : ℕ × ℤ}
    (hp : p ∈ buildTxAmounts txs) :
    ∃ t ∈ txs, isMonetary t = true ∧
      p = (t.transaction_id, signedAmount t) := by
  rcases mem_foldl_insertTx txs [] p hp with h | h
  · cases h
  · exact h

/-- A transaction id that matches no monetary transaction of the group
looks up as the default amount `Decimal::ZERO`. -/
theorem lookupAmount_eq_zero {txs : List Transaction} {id : ℕ}
    (h : ∀ t ∈ txs, isMonetary t = true → t.transaction_id ≠ id) :
    lookupAmount (buildTxAmounts txs) id = 0 := by
  unfold lookupAmount
  cases hf : (buildTxAmounts txs).find? (fun p => p.1 == id) with
  | none => rfl
  | some p =>
    have hp : p ∈ buildTxAmounts txs := List.mem_of_find?_eq_some hf
    have hkey : p.1 = id := by simpa using List.find?_some hf
    rcases mem_buildTxAmounts hp with ⟨t, ht, hmon, hpt⟩
    subst hpt
    exact absurd hkey (h t ht hmon)

/-- C2 amended: when a dispute references a monetary transaction whose
signed amount `a` is negative (a withdrawal), the source subtracts `a`
from all three balances, so the disputed value `-a` is added to
`available`, to `held`, and to `total` (`available` is not left
unchanged). -/
theorem claim_C2_amended (m : List (ℕ × ℤ)) (s : ReplayState) (id c : ℕ)
    (a : ℤ) (ha : lookupAmount m id = a) (hneg : a < 0) :
    applyNonMonetary m s ⟨id, c, .dispute⟩ =
      ⟨s.available - a, s.held - a, s.total - a, s.locked⟩ := by
  simp [applyNonMonetary, ha, hneg]

theorem claim_C2_amended_witness :
    lookupAmount [(2, -30)] 2 = -30 ∧ (-30 : ℤ) < 0 ∧
    applyNonMonetary [(2, -30)] ⟨70, 0, 70, false⟩ ⟨2, 1, .dispute⟩ =
      ⟨70 - -30, 0 - -30, 70 - -30, false⟩ :=
  ⟨by decide, by decide,
    claim_C2_amended [(2, -30)] ⟨70, 0, 70, false⟩ 2 1 (-30)
      (by decide) (by decide)⟩

/-- C4 amended: disputing and then resolving the same transaction restores
`available` and `held` to their pre-dispute values, and `total` keeps the
same value before, between and after, provided the referenced signed
amount is non-negative (a deposit or an unmatched id); the
counterexample shows the claim fails for a disputed withdrawal. -/
theorem claim_C4_amended (m : List (ℕ × ℤ)) (s : ReplayState) (id c c' : ℕ)
    (a : ℤ) (ha : lookupAmount m id = a) (hpos : 0 ≤ a) :
    applyNonMonetary m (applyNonMonetary m s ⟨id, c, .dispute⟩)
        ⟨id, c', .resolve⟩ = s ∧
    (applyNonMonetary m s ⟨id, c, .dispute⟩).total = s.total := by
  have hnlt : ¬ a < 0 := not_lt.mpr hpos
  cases s with
  | mk av hd tot lk => simp [applyNonMonetary, ha, hnlt]

theorem claim_C4_amended_witness :
    lookupAmount [(1, 100)] 1 = 100 ∧ (0 : ℤ) ≤ 100 ∧
    applyNonMonetary [(1, 100)]
        (applyNonMonetary [(1, 100)] ⟨100, 0, 100, false⟩ ⟨1, 1, .dispute⟩)
        ⟨1, 1, .resolve⟩ = ⟨100, 0, 100, false⟩ ∧
    (applyNonMonetary [(1, 100)] ⟨100, 0, 100, false⟩ ⟨1, 1, .dispute⟩).total =
      (100 : ℤ) :=
  ⟨by decide, by decide,
    (claim_C4_amended [(1, 100)] ⟨100, 0, 100, false⟩ 1 1 1 100
      (by decide) (by decide)).1,
    (claim_C4_amended [(1, 100)] ⟨100, 0, 100, false⟩ 1 1 1 100
      (by decide) (by decide)).2⟩

/-- C5 amended: a `Dispute` or `Resolve` whose transaction id matches no
deposit or withdrawal of the same client leaves the replay state —
`available`, `held`, `total` and `locked` — unchanged; a `Chargeback` with
an unmatched id leaves the balances unchanged but still sets
`locked = true` (the chargeback arm is unconditional). -/
theorem claim_C5_amended (txs : List Transaction) (s : ReplayState)
    (id c : ℕ)
    (h : ∀ t ∈ txs, isMonetary t = true → t.transaction_id ≠ id) :
    applyNonMonetary (buildTxAmounts txs) s ⟨id, c, .dispute⟩ = s ∧
    applyNonMonetary (buildTxAmounts txs) s ⟨id, c, .resolve⟩ = s ∧
    applyNonMonetary (buildTxAmounts txs) s ⟨id, c, .chargeback⟩ =
      ⟨s.available, s.held, s.total, true⟩ := by
  have h0 := lookupAmount_eq_zero h
  cases s with
  | mk av hd tot lk => simp [applyNonMonetary, h0]

theorem claim_C5_amended_witness :
    (∀ t ∈ [(⟨1, 1, .deposit 50⟩ : Transaction)],
      isMonetary t = true → t.transaction_id ≠ 999) ∧
    applyNonMonetary (buildTxAmounts [⟨1, 1, .deposit 50⟩])
        ⟨50, 0, 50, false⟩ ⟨999, 1, .dispute⟩ = ⟨50, 0, 50, false⟩ ∧
    applyNonMonetary (buildTxAmounts [⟨1, 1, .deposit 50⟩])
        ⟨50, 0, 50, false⟩ ⟨999, 1, .resolve⟩ = ⟨50, 0, 50, false⟩ ∧
    applyNonMonetary (buildTxAmounts [⟨1, 1, .deposit 50⟩])
        ⟨50, 0, 50, false⟩ ⟨999, 1, .chargeback⟩ = ⟨50, 0, 50, true⟩ :=
  ⟨by decide,
    claim_C5_amended [⟨1, 1, .deposit 50⟩] ⟨50, 0, 50, false⟩ 999 1
      (by decide)⟩

theorem mem_clientGroup {l : List Transaction} {c : ℕ} {t : Transaction} :
    t ∈ clientGroup l c ↔ t ∈ l ∧ t.client = c := by
  simp [clientGroup]

/-- `collect` over a list of `Ok` items succeeds with the items in order. -/
theorem collectResults_map_ok : ∀ (a : List Account),
    collectResults (a.map Except.ok) = .ok a := by
  intro a
  induction a with
  | nil => rfl
  | cons x xs ih => simp [collectResults, ih]

/-- `collect::<Result<Vec<_>, _>>` succeeds only when every item is `Ok`,
and then returns the items in order. -/
theorem collectResults_ok_eq :
    ∀ {rs : List (Except Error Account)} {a : List Account},
      collectResults rs = .ok a → rs = a.map Except.ok := by
  intro rs
  induction rs with
  | nil =>
    intro a h
    simp only [collectResults] at h
    cases h
    rfl
  | cons r rest ih =>
    intro a h
    cases r with
    | error e => simp [collectResults] at h
    | ok x =>
      cases hc : collectResults rest with
      | error e =>
        have hx : collectResults (.ok x :: rest) = .error e := by
          simp [collectResults, hc]
        rw [hx] at h
        cases h
      | ok as =>
        have hx : collectResults (.ok x :: rest) = .ok (x :: as) := by
          simp [collectResults, hc]
        rw [hx] at h
        cases h
        simp [List.map_cons, ih hc]

/-- Every account of a successful batch comes from
`process_client_transactions` on the deduplicated group of one of the
input's client keys. -/
theorem account_source {l : List Transaction} {a : List Account}
    (hok : from_transactions l = .ok a) {acc : Account} (hacc : acc ∈ a) :
    ∃ c ∈ clientKeys l,
      process_client_transactions c ((clientGroup l c).dedup) = .ok acc := by
  unfold from_transactions at hok
  have hmap := collectResults_ok_eq hok
  have : Except.ok acc ∈ (clientKeys l).map
      (fun c => process_client_transactions c ((clientGroup l c).dedup)) := by
    rw [hmap]
    exact List.mem_map_of_mem _ hacc
  rcases List.mem_map.mp this with ⟨c, hc, heq⟩
  exact ⟨c, hc, heq⟩

/-- The replay fold preserves `total = available + held` as long as every
dispute or resolve it applies references a non-negative signed amount. -/
theorem foldl_sum_invariant (m : List (ℕ × ℤ)) :
    ∀ (l : List Transaction) (s : ReplayState),
      (∀ t ∈ l, (t.kind = .dispute ∨ t.kind = .resolve) →
        0 ≤ lookupAmount m t.transaction_id) →
      s.total = s.available + s.held →
      (l.foldl (applyNonMonetary m) s).total =
        (l.foldl (applyNonMonetary m) s).available +
          (l.foldl (applyNonMonetary m) s).held := by
  intro l
  induction l with
  | nil => intro s _ hs; exact hs
  | cons t rest ih =>
    intro s hl hs
    rw [List.foldl_cons]
    refine ih _ (fun t' ht' => hl t' (List.mem_cons_of_mem _ ht')) ?_
    have hT := hl t (List.mem_cons_self _ _)
    rcases t with ⟨i, cc, k⟩
    cases k with
    | dispute =>
      have h0 : ¬ lookupAmount m i < 0 := not_lt.mpr (hT (Or.inl rfl))
      simp only [applyNonMonetary, h0, if_false, if_neg h0]
      rw [hs]; ring
    | resolve =>
      have h0 : ¬ lookupAmount m i < 0 := not_lt.mpr (hT (Or.inr rfl))
      simp only [applyNonMonetary, h0, if_false, if_neg h0]
      rw [hs]; ring
    | chargeback => simpa only [applyNonMonetary] using hs
    | deposit a => simpa only [applyNonMonetary] using hs
    | withdrawal a => simpa only [applyNonMonetary] using hs

/-- The per-client version of the amended C1 invariant. -/
theorem process_total_eq {c : ℕ} {txs : List Transaction} {acc : Account}
    (h : process_client_transactions c txs = .ok acc)
    (hnn : ∀ t ∈ txs, (t.kind = .dispute ∨ t.kind = .resolve) →
      0 ≤ lookupAmount (buildTxAmounts txs) t.transaction_id) :
    acc.total = acc.available + acc.held := by
  unfold process_client_transactions at h
  by_cases hlt : mapTotal (buildTxAmounts txs) < 0
  · rw [if_pos hlt] at h; cases h
  · rw [if_neg hlt] at h
    cases Except.ok.inj h
    exact foldl_sum_invariant (buildTxAmounts txs) _ _
      (fun t ht hk => hnn t (List.mem_of_mem_filter ht) hk)
      (by simp)

/-- C1 amended: on every input on which `from_transactions` returns `Ok`
and in which no dispute or resolve references a monetary transaction with
negative signed amount (i.e. no withdrawal is disputed or resolved), every
returned account satisfies `total = available + held`; the counterexample
shows a disputed withdrawal breaks the invariant. -/
theorem claim_C1_amended {l : List Transaction} {a : List Account}
    (hok : from_transactions l = .ok a)
    (hnn : ∀ t ∈ l, (t.kind = .dispute ∨ t.kind = .resolve) →
      0 ≤ lookupAmount
        (buildTxAmounts ((clientGroup l t.client).dedup)) t.transaction_id) :
    ∀ acc ∈ a, acc.total = acc.available + acc.held := by
  intro acc hacc
  rcases account_source hok hacc with ⟨c, _, hproc⟩
  refine process_total_eq hproc ?_
  intro t ht hk
  have htg : t ∈ clientGroup l c := List.mem_dedup.mp ht
  have hmem := (mem_clientGroup.mp htg).1
  have hcl : t.client = c := (mem_clientGroup.mp htg).2
  have := hnn t hmem hk
  rwa [hcl] at this

theorem claim_C1_amended_witness :
    from_transactions
        [⟨1, 1, .deposit 100⟩, ⟨2, 1, .withdrawal 40⟩, ⟨1, 1, .dispute⟩] =
      .ok [⟨1, -40, 100, 60, false⟩] ∧ (60 : ℤ) = -40 + 100 :=
  ⟨by decide,
    claim_C1_amended (l := [⟨1, 1, .deposit 100⟩, ⟨2, 1, .withdrawal 40⟩,
        ⟨1, 1, .dispute⟩]) (a := [⟨1, -40, 100, 60, false⟩])
      (by decide) (by decide) ⟨1, -40, 100, 60, false⟩ (by decide)⟩

/-- An error produced by `collect` is the error of one of the items. -/
theorem collectResults_error_mem :
    ∀ {rs : List (Except Error Account)} {e : Error},
      collectResults rs = .error e → Except.error e ∈ rs := by
  intro rs
  induction rs with
  | nil => intro e h; simp [collectResults] at h
  | cons r rest ih =>
    intro e h
    cases r with
    | error e' =>
      have : e' = e := by
        simp only [collectResults] at h
        exact Except.error.inj h
      rw [this]
      exact List.mem_cons_self _ _
    | ok x =>
      cases hc : collectResults rest with
      | error e' =>
        have hx : collectResults (.ok x :: rest) = .error e' := by
          simp [collectResults, hc]
        rw [hx] at h
        cases h
        exact List.mem_cons_of_mem _ (ih hc)
      | ok as =>
        have hx : collectResults (.ok x :: rest) = .ok (x :: as) := by
          simp [collectResults, hc]
        rw [hx] at h
        cases h

/-- If any item is an error, `collect` returns an error. -/
theorem collectResults_error_of_mem :
    ∀ {rs : List (Except Error Account)},
      (∃ x ∈ rs, ∃ e, x = .error e) →
      ∃ e, collectResults rs = .error e := by
  intro rs
  induction rs with
  | nil => rintro ⟨x, hx, _⟩; cases hx
  | cons r rest ih =>
    rintro ⟨x, hx, e, hxe⟩
    cases r with
    | error e' => exact ⟨e', by simp [collectResults]⟩
    | ok y =>
      have hxr : x ∈ rest := by
        rcases List.mem_cons.mp hx with h | h
        · rw [h] at hxe; cases hxe
        · exact h
      rcases ih ⟨x, hxr, e, hxe⟩ with ⟨e', he'⟩
      exact ⟨e', by simp [collectResults, he']⟩

/-- `process_client_transactions` fails exactly on a negative map total,
and the error then carries the processed client's id. -/
theorem process_error_iff {c cl : ℕ} {txs : List Transaction} :
    process_client_transactions c txs =
        .error (.noAvailableFundsToWithdraw cl) ↔
      mapTotal (buildTxAmounts txs) < 0 ∧ cl = c := by
  unfold process_client_transactions
  by_cases hlt : mapTotal (buildTxAmounts txs) < 0
  · simp only [hlt, if_true, true_and]
    constructor
    · intro h
      exact (Error.noAvailableFundsToWithdraw.inj (Except.error.inj h)).symm
    · intro h; rw [h]
  · simp [hlt]

/-- C3 amended: `from_transactions` returns the error
`NoAvailableFundsToWithdraw{c}` only for a client `c` of the input whose
total — the sum of the per-id signed amount map built from the client's
deduplicated records — is negative; and whenever some client's total is
negative, the whole batch fails with that error for such a client (no
account is returned for anyone). Structurally identical duplicate records
collapse before the sum, so the record-level sum of deposits minus
withdrawals may be negative while the batch still succeeds (see the
counterexample); `NoAvailableFundsToWithdraw` is the only error. -/
theorem claim_C3_amended (l : List Transaction) :
    (∀ c, from_transactions l = .error (.noAvailableFundsToWithdraw c) →
      c ∈ clientKeys l ∧ clientTotal l c < 0) ∧
    ((∃ c ∈ clientKeys l, clientTotal l c < 0) →
      ∃ c, from_transactions l = .error (.noAvailableFundsToWithdraw c) ∧
        clientTotal l c < 0) := by
  constructor
  · intro cl h
    unfold from_transactions at h
    have hmem := collectResults_error_mem h
    rcases List.mem_map.mp hmem with ⟨c, hc, heq⟩
    rcases process_error_iff.mp heq with ⟨hneg, hcl⟩
    subst hcl
    exact ⟨hc, hneg⟩
  · rintro ⟨c, hc, hneg⟩
    have hproc : process_client_transactions c ((clientGroup l c).dedup) =
        .error (.noAvailableFundsToWithdraw c) :=
      process_error_iff.mpr ⟨hneg, rfl⟩
    have hmem : Except.error (Error.noAvailableFundsToWithdraw c) ∈
        (clientKeys l).map (fun c' =>
          process_client_transactions c' ((clientGroup l c').dedup)) := by
      have h := List.mem_map_of_mem
        (fun c' => process_client_transactions c' ((clientGroup l c').dedup)) hc
      simp only at h
      rwa [hproc] at h
    rcases collectResults_error_of_mem
        ⟨_, hmem, Error.noAvailableFundsToWithdraw c, rfl⟩ with ⟨e, he⟩
    cases e with
    | noAvailableFundsToWithdraw c' =>
      have he' : from_transactions l =
          .error (.noAvailableFundsToWithdraw c') := he
      have h1 : c' ∈ clientKeys l ∧ clientTotal l c' < 0 := by
        unfold from_transactions at he'
        have hm := collectResults_error_mem he'
        rcases List.mem_map.mp hm with ⟨c'', hc'', heq⟩
        rcases process_error_iff.mp heq with ⟨hneg'', hcl''⟩
        subst hcl''
        exact ⟨hc'', hneg''⟩
      exact ⟨c', he', h1.2⟩

theorem claim_C3_amended_witness :
    ∃ c, from_transactions [⟨1, 1, .deposit 50⟩, ⟨2, 1, .withdrawal 100⟩] =
        .error (.noAvailableFundsToWithdraw c) ∧
      clientTotal [⟨1, 1, .deposit 50⟩, ⟨2, 1, .withdrawal 100⟩] c < 0 :=
  (claim_C3_amended [⟨1, 1, .deposit 50⟩, ⟨2, 1, .withdrawal 100⟩]).2
    ⟨1, by decide, by decide⟩

theorem sameIdUnique_of_mem_iff {d₁ d₂ : List Transaction}
    (hmem : ∀ t, t ∈ d₁ ↔ t ∈ d₂) (hu : sameIdUnique d₁) : sameIdUnique d₂ :=
  fun t ht t' ht' hm hm' hid =>
    hu t ((hmem t).mpr ht) t' ((hmem t').mpr ht') hm hm' hid

theorem monIds_nodup {d : List Transaction} (hnd : d.Nodup)
    (hu : sameIdUnique d) : (monIds d).Nodup := by
  refine List.Nodup.map_on ?_ (hnd.filter _)
  intro x hx y hy hxy
  have hx' := List.mem_filter.mp hx
  have hy' := List.mem_filter.mp hy
  exact hu x hx'.1 y hy'.1 hx'.2 hy'.2 hxy

/-- When all monetary ids are distinct, no insertion into the amount map
ever overwrites, and the map is exactly the (reversed) list of the
monetary records' bindings. -/
theorem foldl_insertTx_eq :
    ∀ (txs : List Transaction) (m₀ : List (ℕ × ℤ)),
      (monIds txs).Nodup →
      (∀ p ∈ m₀, p.1 ∉ monIds txs) →
      txs.foldl insertTx m₀ =
        ((txs.filter isMonetary).map txPair).reverse ++ m₀ := by
  intro txs
  induction txs with
  | nil =>
    intro m₀ _ _
    simp
  | cons t rest ih =>
    intro m₀ hnd hdisj
    by_cases hm : isMonetary t = true
    · have hmon : monIds (t :: rest) = t.transaction_id :: monIds rest := by
        simp [monIds, List.filter_cons, hm]
      rw [hmon] at hnd hdisj
      have hnotin : t.transaction_id ∉ monIds rest := (List.nodup_cons.mp hnd).1
      have hndrest : (monIds rest).Nodup := (List.nodup_cons.mp hnd).2
      have hins : insertTx m₀ t = txPair t :: m₀ := by
        rw [insertTx_monetary hm]
        unfold insertAmount txPair
        congr 1
        refine List.filter_eq_self.mpr ?_
        intro p hp
        have hne : p.1 ≠ t.transaction_id := fun h =>
          (hdisj p hp) (h ▸ List.mem_cons_self _ _)
        simpa using hne
      rw [List.foldl_cons, hins,
        ih (txPair t :: m₀) hndrest ?_]
      · simp [List.filter_cons, hm]
      · intro p hp
        rcases List.mem_cons.mp hp with h | h
        · rw [h]
          exact hnotin
        · intro hin
          exact hdisj p h (List.mem_cons_of_mem _ hin)
    · have hm' : isMonetary t = false := Bool.eq_false_iff.mpr hm
      have hmon : monIds (t :: rest) = monIds rest := by
        simp [monIds, List.filter_cons, hm']
      rw [hmon] at hnd hdisj
      rw [List.foldl_cons, insertTx_not_monetary hm', ih m₀ hnd hdisj]
      simp [List.filter_cons, hm']

theorem buildTxAmounts_char {txs : List Transaction}
    (hnd : (monIds txs).Nodup) :
    buildTxAmounts txs = ((txs.filter isMonetary).map txPair).reverse := by
  unfold buildTxAmounts
  rw [foldl_insertTx_eq txs [] hnd (by intro p hp; cases hp)]
  simp

/-- When all monetary ids are distinct, the map total is the sum of the
signed amounts of the group's monetary records. -/
theorem mapTotal_eq {txs : List Transaction} (hnd : (monIds txs).Nodup) :
    mapTotal (buildTxAmounts txs) =
      ((txs.filter isMonetary).map signedAmount).sum := by
  rw [buildTxAmounts_char hnd]
  unfold mapTotal
  rw [List.map_reverse, List.sum_reverse, List.map_map]
  refine congrArg List.sum (List.map_congr_left ?_)
  intro t _
  rfl

/-- When all monetary ids are distinct, looking up the id of a monetary
record of the group returns that record's signed amount. -/
theorem lookupAmount_of_mem {d : List Transaction} {t : Transaction}
    (hnd : (monIds d).Nodup) (huq : sameIdUnique d)
    (ht : t ∈ d) (hm : isMonetary t = true) :
    lookupAmount (buildTxAmounts d) t.transaction_id = signedAmount t := by
  rw [buildTxAmounts_char hnd]
  have htp : txPair t ∈ ((d.filter isMonetary).map txPair).reverse := by
    rw [List.mem_reverse]
    exact List.mem_map_of_mem _ (List.mem_filter.mpr ⟨ht, hm⟩)
  unfold lookupAmount
  cases hf : ((d.filter isMonetary).map txPair).reverse.find?
      (fun p => p.1 == t.transaction_id) with
  | none =>
    exfalso
    have h0 := List.find?_eq_none.mp hf _ htp
    simp [txPair] at h0
  | some p =>
    have hp : p ∈ ((d.filter isMonetary).map txPair).reverse :=
      List.mem_of_find?_eq_some hf
    have hkey : p.1 = t.transaction_id := by simpa using List.find?_some hf
    rcases List.mem_map.mp (List.mem_reverse.mp hp) with ⟨u, hu', hup⟩
    have humem := List.mem_filter.mp hu'
    have huid : u.transaction_id = t.transaction_id := by
      rw [← hup] at hkey
      exact hkey
    have hut : u = t := huq u humem.1 t ht humem.2 hm huid
    rw [← hup, hut]
    rfl

/-- With distinct monetary ids, the amount lookup depends only on the set
of the group's records. -/
theorem lookupAmount_eq_of_mem_iff {d₁ d₂ : List Transaction}
    (hnd₁ : d₁.Nodup) (hnd₂ : d₂.Nodup)
    (hmem : ∀ t, t ∈ d₁ ↔ t ∈ d₂) (huq : sameIdUnique d₁) (id : ℕ) :
    lookupAmount (buildTxAmounts d₁) id =
      lookupAmount (buildTxAmounts d₂) id := by
  have huq₂ := sameIdUnique_of_mem_iff hmem huq
  by_cases hex : ∃ t ∈ d₁, isMonetary t = true ∧ t.transaction_id = id
  · rcases hex with ⟨t, ht, hm, hid⟩
    subst hid
    rw [lookupAmount_of_mem (monIds_nodup hnd₁ huq) huq ht hm,
      lookupAmount_of_mem (monIds_nodup hnd₂ huq₂) huq₂ ((hmem t).mp ht) hm]
  · push_neg at hex
    rw [lookupAmount_eq_zero (fun t ht hm => hex t ht hm),
      lookupAmount_eq_zero (fun t ht hm => hex t ((hmem t).mpr ht) hm)]

/-- Each replay step adds constants (determined by the fixed amount map,
never by the current state) to the three balances and or-accumulates the
lock, so any two steps commute. -/
theorem applyNonMonetary_comm (m : List (ℕ × ℤ)) (s : ReplayState)
    (t₁ t₂ : Transaction) :
    applyNonMonetary m (applyNonMonetary m s t₁) t₂ =
      applyNonMonetary m (applyNonMonetary m s t₂) t₁ := by
  rcases t₁ with ⟨i₁, c₁, k₁⟩
  rcases t₂ with ⟨i₂, c₂, k₂⟩
  cases k₁ <;> cases k₂ <;>
    simp only [applyNonMonetary] <;>
    split_ifs <;>
    simp only [ReplayState.mk.injEq] <;>
    and_intros <;>
    first
    | trivial
    | ring

/-- Folding a pairwise-commuting step over a list is invariant under
permutation of the list. -/
theorem foldl_perm_of_comm {β : Type} (f : ReplayState → β → ReplayState)
    (hc : ∀ s a b, f (f s a) b = f (f s b) a) {l₁ l₂ : List β}
    (h : List.Perm l₁ l₂) :
    ∀ s, l₁.foldl f s = l₂.foldl f s := by
  induction h with
  | nil => intro s; rfl
  | cons x _ ih =>
    intro s
    simp only [List.foldl_cons]
    exact ih _
  | swap x y rest =>
    intro s
    simp only [List.foldl_cons]
    rw [hc]
  | trans _ _ ih₁ ih₂ =>
    intro s
    exact (ih₁ s).trans (ih₂ s)

/-- With distinct monetary ids, `process_client_transactions` depends only
on the set of the group's records, not on their order or multiplicity. -/
theorem process_eq_of_mem_iff {c : ℕ} {d₁ d₂ : List Transaction}
    (hnd₁ : d₁.Nodup) (hnd₂ : d₂.Nodup)
    (hmem : ∀ t, t ∈ d₁ ↔ t ∈ d₂) (huq : sameIdUnique d₁) :
    process_client_transactions c d₁ = process_client_transactions c d₂ := by
  have hperm : List.Perm d₁ d₂ :=
    (List.perm_ext_iff_of_nodup hnd₁ hnd₂).mpr hmem
  have huq₂ := sameIdUnique_of_mem_iff hmem huq
  have htot : mapTotal (buildTxAmounts d₁) = mapTotal (buildTxAmounts d₂) := by
    rw [mapTotal_eq (monIds_nodup hnd₁ huq), mapTotal_eq (monIds_nodup hnd₂ huq₂)]
    exact ((hperm.filter _).map _).sum_eq
  have happly : applyNonMonetary (buildTxAmounts d₁) =
      applyNonMonetary (buildTxAmounts d₂) := by
    funext s tx
    unfold applyNonMonetary
    rw [lookupAmount_eq_of_mem_iff hnd₁ hnd₂ hmem huq tx.transaction_id]
  have hfold : ∀ s, (d₁.filter (fun tx => !isMonetary tx)).foldl
      (applyNonMonetary (buildTxAmounts d₁)) s =
      (d₂.filter (fun tx => !isMonetary tx)).foldl
        (applyNonMonetary (buildTxAmounts d₂)) s := by
    intro s
    rw [happly]
    exact foldl_perm_of_comm _ (applyNonMonetary_comm (buildTxAmounts d₂))
      (hperm.filter _) s
  simp only [process_client_transactions]
  rw [htot, hfold]

theorem clientKeys_nodup (l : List Transaction) : (clientKeys l).Nodup :=
  List.nodup_dedup _

theorem mem_clientKeys {l : List Transaction} {c : ℕ} :
    c ∈ clientKeys l ↔ ∃ t ∈ l, t.client = c := by
  simp [clientKeys]

theorem dedup_group_mem_iff {l₁ l₂ : List Transaction}
    (hmem : ∀ t, t ∈ l₁ ↔ t ∈ l₂) (c : ℕ) :
    ∀ t, t ∈ (clientGroup l₁ c).dedup ↔ t ∈ (clientGroup l₂ c).dedup := by
  intro t
  rw [List.mem_dedup, List.mem_dedup, mem_clientGroup, mem_clientGroup,
    hmem t]

theorem sameIdUnique_group {l : List Transaction} (hu : uniqueMonetaryIds l)
    (c : ℕ) : sameIdUnique ((clientGroup l c).dedup) := by
  intro t ht t' ht' hm hm' hid
  have h1 := mem_clientGroup.mp (List.mem_dedup.mp ht)
  have h2 := mem_clientGroup.mp (List.mem_dedup.mp ht')
  exact hu t h1.1 t' h2.1 hm hm' (h1.2.trans h2.2.symm) hid

theorem process_group_eq {l₁ l₂ : List Transaction}
    (hu : uniqueMonetaryIds l₁) (hmem : ∀ t, t ∈ l₁ ↔ t ∈ l₂) (c : ℕ) :
    process_client_transactions c ((clientGroup l₁ c).dedup) =
      process_client_transactions c ((clientGroup l₂ c).dedup) :=
  process_eq_of_mem_iff (List.nodup_dedup _) (List.nodup_dedup _)
    (dedup_group_mem_iff hmem c) (sameIdUnique_group hu c)

theorem clientKeys_perm {l₁ l₂ : List Transaction}
    (hmem : ∀ t, t ∈ l₁ ↔ t ∈ l₂) :
    List.Perm (clientKeys l₁) (clientKeys l₂) := by
  refine (List.perm_ext_iff_of_nodup (clientKeys_nodup _)
    (clientKeys_nodup _)).mpr ?_
  intro c
  rw [mem_clientKeys, mem_clientKeys]
  constructor
  · rintro ⟨t, ht, hc⟩
    exact ⟨t, (hmem t).mp ht, hc⟩
  · rintro ⟨t, ht, hc⟩
    exact ⟨t, (hmem t).mpr ht, hc⟩

theorem collectResults_ok_of_forall :
    ∀ {rs : List (Except Error Account)},
      (∀ x ∈ rs, ∃ b, x = .ok b) → ∃ a, collectResults rs = .ok a := by
  intro rs
  induction rs with
  | nil => intro _; exact ⟨[], rfl⟩
  | cons r rest ih =>
    intro h
    rcases h r (List.mem_cons_self _ _) with ⟨b, hb⟩
    subst hb
    rcases ih (fun x hx => h x (List.mem_cons_of_mem _ hx)) with ⟨a, ha⟩
    exact ⟨b :: a, by simp [collectResults, ha]⟩

theorem perm_of_map_ok_perm {a₁ a₂ : List Account}
    (h : List.Perm (a₁.map (Except.ok : Account → Except Error Account))
      (a₂.map (Except.ok : Account → Except Error Account))) :
    List.Perm a₁ a₂ := by
  rw [← Multiset.coe_eq_coe] at h ⊢
  rw [← Multiset.map_coe, ← Multiset.map_coe] at h
  exact Multiset.map_injective (fun x y hxy => Except.ok.inj hxy) h

/-- Two inputs with the same set of records (given unique monetary ids)
yield, on success, account lists that are permutations of one another. -/
theorem from_transactions_ok_perm {l₁ l₂ : List Transaction}
    (hu : uniqueMonetaryIds l₁) (hmem : ∀ t, t ∈ l₁ ↔ t ∈ l₂)
    {a₁ : List Account} (h₁ : from_transactions l₁ = .ok a₁) :
    ∃ a₂, from_transactions l₂ = .ok a₂ ∧ List.Perm a₁ a₂ := by
  have hF : (clientKeys l₁).map
      (fun c => process_client_transactions c ((clientGroup l₁ c).dedup)) =
    (clientKeys l₁).map
      (fun c => process_client_transactions c ((clientGroup l₂ c).dedup)) :=
    List.map_congr_left (fun c _ => process_group_eq hu hmem c)
  have hrs : List.Perm
      ((clientKeys l₁).map
        (fun c => process_client_transactions c ((clientGroup l₁ c).dedup)))
      ((clientKeys l₂).map
        (fun c => process_client_transactions c ((clientGroup l₂ c).dedup))) := by
    rw [hF]
    exact (clientKeys_perm hmem).map _
  have h1c : collectResults ((clientKeys l₁).map
      (fun c => process_client_transactions c ((clientGroup l₁ c).dedup))) =
      .ok a₁ := h₁
  have h1m := collectResults_ok_eq h1c
  have hallok : ∀ x ∈ (clientKeys l₂).map
      (fun c => process_client_transactions c ((clientGroup l₂ c).dedup)),
      ∃ b, x = .ok b := by
    intro x hx
    have hx1 : x ∈ a₁.map Except.ok := by
      rw [← h1m]
      exact hrs.mem_iff.mpr hx
    rcases List.mem_map.mp hx1 with ⟨b, _, hb⟩
    exact ⟨b, hb.symm⟩
  rcases collectResults_ok_of_forall hallok with ⟨a₂, ha₂⟩
  refine ⟨a₂, ha₂, ?_⟩
  have h2m := collectResults_ok_eq ha₂
  apply perm_of_map_ok_perm
  rw [← h1m, ← h2m]
  exact hrs

/-- C10: on inputs whose monetary `(client, id)` pairs are unique, the set
of accounts returned by `from_transactions` is invariant under reordering
and duplication of the input records: the replayed effects read only the
fixed per-id amount map, never the running balances, so they commute, and
duplicated records collapse in the per-client set. -/
theorem claim_C10 {l₁ l₂ : List Transaction} {a₁ a₂ : List Account}
    (hu : uniqueMonetaryIds l₁)
    (h12 : ∀ t ∈ l₁, t ∈ l₂) (h21 : ∀ t ∈ l₂, t ∈ l₁)
    (h₁ : from_transactions l₁ = .ok a₁)
    (h₂ : from_transactions l₂ = .ok a₂) :
    a₁.toFinset = a₂.toFinset := by
  have hmem : ∀ t, t ∈ l₁ ↔ t ∈ l₂ := fun t => ⟨h12 t, h21 t⟩
  rcases from_transactions_ok_perm hu hmem h₁ with ⟨a₂', h₂', hperm⟩
  rw [h₂] at h₂'
  cases Except.ok.inj h₂'
  exact List.toFinset_eq_of_perm _ _ hperm

theorem claim_C10_witness :
    ([(⟨1, 0, 100, 100, false⟩ : Account)]).toFinset =
      ([(⟨1, 0, 100, 100, false⟩ : Account)]).toFinset :=
  @claim_C10 [⟨1, 1, .deposit 100⟩, ⟨1, 1, .dispute⟩]
    [⟨1, 1, .dispute⟩, ⟨1, 1, .deposit 100⟩, ⟨1, 1, .dispute⟩]
    [⟨1, 0, 100, 100, false⟩] [⟨1, 0, 100, 100, false⟩]
    (by decide) (by decide) (by decide) (by decide) (by decide)

/-- C6 amended: duplicate `Dispute` records with the same client and
transaction id are structurally identical (a dispute carries no amount),
so `from_transactions` collapses them in its per-client set and the
dispute's fund-moving effect is applied exactly once, regardless of any
deduplication by the Source: appending a copy of an existing dispute
record leaves the successful result unchanged up to output order. -/
theorem claim_C6_amended {l : List Transaction} {t : Transaction}
    {a : List Account}
    (hu : uniqueMonetaryIds l) (ht : t ∈ l) (_hk : t.kind = .dispute)
    (h : from_transactions l = .ok a) :
    ∃ a', from_transactions (l ++ [t]) = .ok a' ∧
      a'.toFinset = a.toFinset := by
  have hmem : ∀ x, x ∈ l ↔ x ∈ l ++ [t] := by
    intro x
    rw [List.mem_append, List.mem_singleton]
    constructor
    · exact Or.inl
    · rintro (hx | hx)
      · exact hx
      · rw [hx]
        exact ht
  rcases from_transactions_ok_perm hu hmem h with ⟨a', h', hperm⟩
  exact ⟨a', h', (List.toFinset_eq_of_perm _ _ hperm).symm⟩

theorem claim_C6_amended_witness :
    ∃ a', from_transactions
        ([⟨1, 1, .deposit 100⟩, ⟨1, 1, .dispute⟩] ++ [⟨1, 1, .dispute⟩]) =
      .ok a' ∧
      a'.toFinset = ([(⟨1, 0, 100, 100, false⟩ : Account)]).toFinset :=
  claim_C6_amended (l := [⟨1, 1, .deposit 100⟩, ⟨1, 1, .dispute⟩])
    (t := ⟨1, 1, .dispute⟩) (a := [⟨1, 0, 100, 100, false⟩])
    (by decide) (by decide) (by decide) (by decide)

end Txns
